import Mathlib

/-!
Verification of the package-manager detection / command-synthesis layer and the
input-validation layer of the node-project-manager editor extension.

The TypeScript source is shallowly embedded:

* `PackageManagerDetector` (src/utils/package-manager-detector.utils.ts): the
  VS Code workspace state that `detect` consults (the first workspace folder's
  lock files and the `nodeProjectManager.packageManager` setting) is made an
  explicit `VSCodeEnv` argument; `fs.existsSync(path.join(root, f))` becomes
  membership of `f` in the folder's file list.
* `ValidationUtils` (src/utils/validation.utils.ts): JavaScript string
  operations (`trim`, `split('@')`, `toLowerCase`, regex tests) are embedded as
  executable functions over `List Char`; the regexes involved are star-free in
  the relevant sense (their character classes are disjoint from the delimiters
  that follow them), so each has a deterministic left-to-right matcher, written
  out below and related to declarative grammars in the theorems.

JavaScript truthiness of an optional string argument (`!packageName`) is
`jsTruthy`; a JS `string` is falsy exactly when empty.
-/

/-- The `PackageManagerName` union type (`'npm' | 'yarn' | 'pnpm' | 'bun'`). -/
inductive PackageManagerName where
  | npm
  | yarn
  | pnpm
  | bun
deriving DecidableEq

/-- The literal identifier of a package manager, as interpolated into commands. -/
def PackageManagerName.str : PackageManagerName → String
  | .npm => "npm"
  | .yarn => "yarn"
  | .pnpm => "pnpm"
  | .bun => "bun"

/-- Model of the first VS Code workspace folder: the set of file names that
`fs.existsSync` reports at its root. -/
structure WorkspaceFolder where
  files : List String
deriving DecidableEq

/-- Model of the VS Code state read by `PackageManagerDetector`: the optional
first workspace folder and the optional `nodeProjectManager.packageManager`
configuration value. -/
structure VSCodeEnv where
  workspaceFolder : Option WorkspaceFolder
  packageManagerSetting : Option PackageManagerName
deriving DecidableEq

/-- `config.get<PackageManagerName>('packageManager', dflt)`: the configured
value when present, else the supplied default. -/
def VSCodeEnv.configGet (env : VSCodeEnv) (dflt : PackageManagerName) : PackageManagerName :=
  env.packageManagerSetting.getD dflt

/-- JS truthiness of an optional string (`undefined` and `''` are falsy). -/
def jsTruthy : Option String → Bool
  | none => false
  | some s => decide (s ≠ "")

/-- The ordered lock-file table of `PackageManagerDetector.detect`
(src/utils/package-manager-detector.utils.ts lines 23-28). -/
def lockFiles : List (String × PackageManagerName) :=
  [("pnpm-lock.yaml", .pnpm),
   ("yarn.lock", .yarn),
   ("bun.lockb", .bun),
   ("package-lock.json", .npm)]

/-- `PackageManagerDetector.detect` (lines 13-51): npm when no workspace folder
exists; otherwise the manager of the first lock file of `lockFiles` present at
the root; otherwise the configured manager, defaulting to npm. -/
def detect (env : VSCodeEnv) : PackageManagerName :=
  match env.workspaceFolder with
  | none => .npm
  | some ws =>
    match lockFiles.find? (fun lf => ws.files.contains lf.1) with
    | some lf => lf.2
    | none => env.configGet .npm

/-- `PackageManagerDetector.getInstallCommand` (lines 59-87). -/
def getInstallCommand (env : VSCodeEnv) (packageName : Option String) (isDev : Bool) : String :=
  let manager := detect env
  if jsTruthy packageName = false then
    match manager with
    | .yarn => "yarn install"
    | .pnpm => "pnpm install"
    | .bun => "bun install"
    | .npm => "npm install"
  else
    let pkg := packageName.getD ""
    match manager with
    | .yarn => "yarn add " ++ pkg ++ (if isDev then " --dev" else "")
    | .pnpm => "pnpm add " ++ pkg ++ (if isDev then " --save-dev" else "")
    | .bun => "bun add " ++ pkg ++ (if isDev then " --dev" else "")
    | .npm => "npm install " ++ pkg ++ (if isDev then " --save-dev" else "")

/-- `PackageManagerDetector.getRemoveCommand` (lines 94-107). -/
def getRemoveCommand (env : VSCodeEnv) (packageName : String) : String :=
  match detect env with
  | .yarn => "yarn remove " ++ packageName
  | .pnpm => "pnpm remove " ++ packageName
  | .bun => "bun remove " ++ packageName
  | .npm => "npm uninstall " ++ packageName

/-- `PackageManagerDetector.getUpdateCommand` (lines 115-145), the current
two-argument variant: an explicit `@version` (or `@latest`) suffix on the
manager's add verb. -/
def getUpdateCommand (env : VSCodeEnv) (packageName : String) (version : Option String) : String :=
  let manager := detect env
  if jsTruthy version = true then
    let v := version.getD ""
    match manager with
    | .yarn => "yarn add " ++ packageName ++ "@" ++ v
    | .pnpm => "pnpm add " ++ packageName ++ "@" ++ v
    | .bun => "bun add " ++ packageName ++ "@" ++ v
    | .npm => "npm install " ++ packageName ++ "@" ++ v
  else
    match manager with
    | .yarn => "yarn add " ++ packageName ++ "@latest"
    | .pnpm => "pnpm add " ++ packageName ++ "@latest"
    | .bun => "bun add " ++ packageName ++ "@latest"
    | .npm => "npm install " ++ packageName ++ "@latest"

/-- The historical second variant of `getUpdateCommand` (same packed source
file, lines 324-337): one argument, bare manager-native update/upgrade verbs. -/
def legacyGetUpdateCommand (env : VSCodeEnv) (packageName : String) : String :=
  match detect env with
  | .yarn => "yarn upgrade " ++ packageName
  | .pnpm => "pnpm update " ++ packageName
  | .bun => "bun update " ++ packageName
  | .npm => "npm update " ++ packageName

/-- `PackageManagerDetector.getAuditCommand` (lines 151-164). -/
def getAuditCommand (env : VSCodeEnv) : String :=
  match detect env with
  | .yarn => "yarn audit"
  | .pnpm => "pnpm audit"
  | .bun => "bun audit"
  | .npm => "npm audit"

/-- `PackageManagerDetector.getRunCommand` (lines 171-184): note that yarn and
pnpm use the shorthand form without the `run` keyword. -/
def getRunCommand (env : VSCodeEnv) (scriptName : String) : String :=
  match detect env with
  | .yarn => "yarn " ++ scriptName
  | .pnpm => "pnpm " ++ scriptName
  | .bun => "bun run " ++ scriptName
  | .npm => "npm run " ++ scriptName

/-! ## Validator embedding (src/unnamed/part_001, `ValidationUtils`)

JS string primitives are modelled over `List Char` so that every definition
evaluates inside the kernel. -/

/-- The whitespace class of JS `String.prototype.trim` (ASCII part). -/
def isJsSpace (c : Char) : Bool :=
  c = ' ' || c = '\t' || c = '\n' || c = '\r' || c = '\x0b' || c = '\x0c'

/-- JS `s.trim()`: strip leading and trailing whitespace. -/
def jsTrim (l : List Char) : List Char :=
  ((l.dropWhile isJsSpace).reverse.dropWhile isJsSpace).reverse

/-- JS `s.split(sep)` for a one-character separator. -/
def splitOnChar (sep : Char) : List Char → List (List Char)
  | [] => [[]]
  | c :: rest =>
    let r := splitOnChar sep rest
    if c = sep then [] :: r
    else (c :: r.headD []) :: r.tail

/-- JS `s.startsWith(c)` for a one-character pattern. -/
def startsWithChar (c : Char) : List Char → Bool
  | [] => false
  | d :: _ => d = c

/-- First character class of the package-name regex, `[a-z0-9-~]`. -/
def isPkgStartChar (c : Char) : Bool :=
  ('a' ≤ c && c ≤ 'z') || ('0' ≤ c && c ≤ '9') || c = '-' || c = '~'

/-- Continuation character class of the package-name regex, `[a-z0-9-._~]`. -/
def isPkgChar (c : Char) : Bool :=
  isPkgStartChar c || c = '.' || c = '_'

/-- Matcher for one name segment, `[a-z0-9-~][a-z0-9-._~]*` anchored on both
sides. -/
def matchPkgSegment : List Char → Bool
  | [] => false
  | c :: cs => isPkgStartChar c && cs.all isPkgChar

/-- Matcher for the full package-name regex
`^(@[a-z0-9-~][a-z0-9-._~]*\/)?[a-z0-9-~][a-z0-9-._~]*$`.  Neither character
class contains `@` or `/`, so the optional scope group is taken exactly when
the input starts with `@`, and the scope ends at the first `/`. -/
def matchPkgNameRegex (l : List Char) : Bool :=
  if startsWithChar '@' l then
    match l.tail.dropWhile (fun c => !(c == '/')) with
    | '/' :: namePart =>
      matchPkgSegment (l.tail.takeWhile (fun c => !(c == '/'))) && matchPkgSegment namePart
    | _ => false
  else matchPkgSegment l

/-- `ValidationUtils.validatePackageName` over the character list of the input:
reject empty/whitespace-only input, then test the regex against the lower-cased
copy and the length bound 214 against the original. -/
def validatePackageNameL (l : List Char) : Bool :=
  if l = [] ∨ jsTrim l = [] then false
  else matchPkgNameRegex (l.map Char.toLower) && decide (l.length ≤ 214)

/-- `ValidationUtils.validatePackageName` (part_001 lines 10-21). -/
def validatePackageName (name : String) : Bool :=
  validatePackageNameL name.data

/-- The version-body character class `[\d\w.-]` of the version regex
(`\d ⊆ \w`, so this is word characters plus dot and hyphen). -/
def isVersChar (c : Char) : Bool :=
  ('0' ≤ c && c ≤ '9') || ('a' ≤ c && c ≤ 'z') || ('A' ≤ c && c ≤ 'Z') ||
    c = '_' || c = '.' || c = '-'

/-- Fueled matcher for `[\d\w.-]+(\s*\|\|\s*[\d\w.-]+)*` anchored on both
sides: a non-empty run of version characters, then either the end or
whitespace, a literal `||`, whitespace, and again.  The classes `[\d\w.-]`,
`\s` and `|` are pairwise disjoint, so the greedy left-to-right scan below is
the unique parse.  The fuel only bounds the recursion; every iteration consumes
at least three characters, so `length + 1` fuel never runs out. -/
def versSegsF : Nat → List Char → Bool
  | 0, _ => false
  | fuel + 1, l =>
    if l.takeWhile isVersChar = [] then false
    else if l.dropWhile isVersChar = [] then true
    else
      match (l.dropWhile isVersChar).dropWhile isJsSpace with
      | '|' :: '|' :: l2 => versSegsF fuel (l2.dropWhile isJsSpace)
      | _ => false

/-- The seg-and-or-ranges matcher with adequate fuel. -/
def versSegs (l : List Char) : Bool :=
  versSegsF (l.length + 1) l

/-- The optional comparator prefix `(\^|~|>=|<=|>|<)?` of the version regex.
The alternatives are tried in regex order; `>=`/`<=` win over `>`/`<`, and if a
comparator character is present the prefix must be taken, because none of
`^ ~ > < =` is a version-body character. -/
def stripComparator (l : List Char) : List Char :=
  match l with
  | c1 :: c2 :: rest =>
    if (c1 = '>' ∨ c1 = '<') ∧ c2 = '=' then rest
    else if c1 = '^' ∨ c1 = '~' ∨ c1 = '>' ∨ c1 = '<' then c2 :: rest
    else l
  | [c1] => if c1 = '^' ∨ c1 = '~' ∨ c1 = '>' ∨ c1 = '<' then [] else [c1]
  | [] => []

/-- The full version regex of `validatePackageNameWithVersion`:
`^(\^|~|>=|<=|>|<)?[\d\w.-]+(\s*\|\|\s*[\d\w.-]+)*$|^latest$|^next$|^beta$|^alpha$`. -/
def jsVersionTestL (v : List Char) : Bool :=
  versSegs (stripComparator v) ||
    v == "latest".data || v == "next".data || v == "beta".data || v == "alpha".data

/-- `ValidationUtils.validatePackageNameWithVersion` (part_001 lines 28-80):
trim, split on `@`, and dispatch on whether the input is scoped and on the
number of parts. -/
def validatePackageNameWithVersion (nameWithVersion : String) : Bool :=
  if nameWithVersion.data = [] ∨ jsTrim nameWithVersion.data = [] then false
  else
    let trimmed := jsTrim nameWithVersion.data
    let parts := splitOnChar '@' trimmed
    if startsWithChar '@' trimmed then
      if parts.length = 2 then validatePackageNameL trimmed
      else if parts.length = 3 then
        validatePackageNameL ('@' :: parts.getD 1 []) && jsVersionTestL (parts.getD 2 [])
      else false
    else
      if parts.length = 1 then validatePackageNameL trimmed
      else if parts.length = 2 then
        validatePackageNameL (parts.getD 0 []) && jsVersionTestL (parts.getD 1 [])
      else false

/-- The script-name character class `[a-zA-Z0-9:_-]`. -/
def isScriptChar (c : Char) : Bool :=
  ('a' ≤ c && c ≤ 'z') || ('A' ≤ c && c ≤ 'Z') || ('0' ≤ c && c ≤ '9') ||
    c = ':' || c = '_' || c = '-'

/-- `ValidationUtils.validateScriptName` (part_001 lines 87-95). -/
def validateScriptName (name : String) : Bool :=
  if name.data = [] ∨ jsTrim name.data = [] then false
  else !name.data.isEmpty && name.data.all isScriptChar

/-- `ValidationUtils.validateScriptCommand` (part_001 lines 102-104):
`!!(command && command.trim())`. -/
def validateScriptCommand (command : String) : Bool :=
  !(command.data == []) && !(jsTrim command.data == [])

/-- `ValidationUtils.validatePackageNameInput` (part_001 lines 156-180),
without the out-of-scope logging side effects. -/
def validatePackageNameInput (value : String) : Option String :=
  if jsTrim value.data = [] then some "Package name cannot be empty"
  else if validatePackageName value = false then
    some "Invalid package name. Use lowercase letters, numbers, hyphens, and dots only"
  else none

/-- `ValidationUtils.validatePackageNameWithVersionInput` (part_001 lines
187-211). -/
def validatePackageNameWithVersionInput (value : String) : Option String :=
  if jsTrim value.data = [] then some "Package name cannot be empty"
  else if validatePackageNameWithVersion value = false then
    some "Invalid package name or version. Examples: lodash, lodash@4.0.0, @types/node@latest"
  else none

/-- `ValidationUtils.validateScriptNameInput` (part_001 lines 218-228). -/
def validateScriptNameInput (value : String) : Option String :=
  if jsTrim value.data = [] then some "Script name cannot be empty"
  else if validateScriptName value = false then
    some "Invalid script name. Use alphanumeric characters, hyphens, underscores, and colons only"
  else none

/-- `ValidationUtils.validateScriptCommandInput` (part_001 lines 235-241). -/
def validateScriptCommandInput (value : String) : Option String :=
  if jsTrim value.data = [] then some "Script command cannot be empty"
  else none

/-- Substring test used to state that rejection messages contain a keyword. -/
def hasSub (l pat : List Char) : Bool :=
  match l with
  | [] => pat == []
  | c :: rest => pat.isPrefixOf (c :: rest) || hasSub rest pat

/-! ## Spec-side declarative definitions

These are written from the specification's wording, to be compared against the
source-derived matchers above. -/

/-- The property "the first whitespace-delimited token of `s` is `tok`":
`s` is `tok` itself or starts with `tok` followed by a space. -/
def firstTokenIs (s tok : String) : Prop :=
  s = tok ∨ ∃ rest, s.data = tok.data ++ ' ' :: rest

/-- Declarative form of one name segment of the spec grammar: a first character
from `[a-z0-9-~]` followed by characters from `[a-z0-9-._~]`. -/
def SegSpec (l : List Char) : Prop :=
  ∃ c cs, l = c :: cs ∧ isPkgStartChar c = true ∧ cs.all isPkgChar = true

/-- The spec's package-name grammar: non-empty after trimming, at most 214
characters, and the lower-cased copy is either a bare segment or
`@scope/name` with both parts segments. -/
def NameGrammar (name : String) : Prop :=
  jsTrim name.data ≠ [] ∧ name.data.length ≤ 214 ∧
    (SegSpec (name.data.map Char.toLower) ∨
      ∃ scope rest, name.data.map Char.toLower = '@' :: (scope ++ '/' :: rest) ∧
        SegSpec scope ∧ SegSpec rest)

/-- Declarative or-range version grammar: a non-empty run of version-body
characters, optionally repeated with whitespace-padded `||` separators. -/
inductive OrRange : List Char → Prop where
  | single {seg : List Char} : seg ≠ [] → seg.all isVersChar = true → OrRange seg
  | more {seg w1 w2 rest : List Char} :
      seg ≠ [] → seg.all isVersChar = true →
      w1.all isJsSpace = true → w2.all isJsSpace = true →
      OrRange rest →
      OrRange (seg ++ (w1 ++ ('|' :: '|' :: (w2 ++ rest))))

/-- The spec's optional comparator prefix: empty or one of
`^ ~ >= <= > <`. -/
def ComparatorPfx (l : List Char) : Prop :=
  l = [] ∨ l = ['^'] ∨ l = ['~'] ∨ l = ['>', '='] ∨ l = ['<', '='] ∨ l = ['>'] ∨ l = ['<']

/-- The spec's version grammar: an optional comparator prefix followed by an
or-range, or one of the literal keywords. -/
def VersionSpec (v : List Char) : Prop :=
  (∃ pfx body, v = pfx ++ body ∧ ComparatorPfx pfx ∧ OrRange body) ∨
  v = "latest".data ∨ v = "next".data ∨ v = "beta".data ∨ v = "alpha".data

/-- The spec's split-on-`@` description of `validatePackageNameWithVersion`:
scoped inputs must split into exactly 2 parts (bare name) or 3 parts
(name plus version); unscoped inputs into exactly 1 or 2 parts; the name part
must pass `validatePackageName` and the version part the version grammar. -/
def SplitGrammar (s : String) : Prop :=
  if startsWithChar '@' (jsTrim s.data) then
    ((splitOnChar '@' (jsTrim s.data)).length = 2 ∧
      validatePackageNameL (jsTrim s.data) = true) ∨
    ((splitOnChar '@' (jsTrim s.data)).length = 3 ∧
      validatePackageNameL ('@' :: (splitOnChar '@' (jsTrim s.data)).getD 1 []) = true ∧
      VersionSpec ((splitOnChar '@' (jsTrim s.data)).getD 2 []))
  else
    ((splitOnChar '@' (jsTrim s.data)).length = 1 ∧
      validatePackageNameL (jsTrim s.data) = true) ∨
    ((splitOnChar '@' (jsTrim s.data)).length = 2 ∧
      validatePackageNameL ((splitOnChar '@' (jsTrim s.data)).getD 0 []) = true ∧
      VersionSpec ((splitOnChar '@' (jsTrim s.data)).getD 1 []))

/-! ## List-scanner lemmas -/

theorem twAll (p : Char → Bool) (l : List Char) : (l.takeWhile p).all p = true := by
  induction l with
  | nil => simp
  | cons c cs ih =>
    by_cases h : p c
    · simp [List.takeWhile, h, ih]
    · simp [List.takeWhile, h]

theorem dwOfAll {p : Char → Bool} {l : List Char} (h : l.all p = true) : l.dropWhile p = [] := by
  induction l with
  | nil => simp
  | cons c cs ih =>
    simp only [List.all_cons, Bool.and_eq_true] at h
    simp [List.dropWhile, h.1, ih h.2]

theorem twAppend {p : Char → Bool} {l1 : List Char} (l2 : List Char) (h : l1.all p = true) :
    (l1 ++ l2).takeWhile p = l1 ++ l2.takeWhile p := by
  induction l1 with
  | nil => simp
  | cons c cs ih =>
    simp only [List.all_cons, Bool.and_eq_true] at h
    simp [List.takeWhile, h.1, ih h.2]

theorem dwAppend {p : Char → Bool} {l1 : List Char} (l2 : List Char) (h : l1.all p = true) :
    (l1 ++ l2).dropWhile p = l2.dropWhile p := by
  induction l1 with
  | nil => simp
  | cons c cs ih =>
    simp only [List.all_cons, Bool.and_eq_true] at h
    simp [List.dropWhile, h.1, ih h.2]

theorem twConsNeg {p : Char → Bool} {c : Char} (cs : List Char) (h : p c = false) :
    (c :: cs).takeWhile p = [] := by
  simp [List.takeWhile, h]

theorem dwConsNeg {p : Char → Bool} {c : Char} (cs : List Char) (h : p c = false) :
    (c :: cs).dropWhile p = c :: cs := by
  simp [List.dropWhile, h]

theorem dwLenLe (p : Char → Bool) (l : List Char) : (l.dropWhile p).length ≤ l.length := by
  induction l with
  | nil => simp
  | cons c cs ih =>
    by_cases h : p c
    · simp only [List.dropWhile, h]
      exact Nat.le_succ_of_le ih
    · simp [List.dropWhile, h]

/-! ## Character-class facts -/

theorem versChar_not_space {c : Char} (h : isVersChar c = true) : isJsSpace c = false := by
  by_cases hs : isJsSpace c = true
  · simp only [isJsSpace, Bool.or_eq_true, decide_eq_true_eq] at hs
    rcases hs with ((((h1 | h1) | h1) | h1) | h1) | h1 <;> subst h1 <;> simp [isVersChar] at h
  · simpa using hs

theorem space_not_versChar {c : Char} (h : isJsSpace c = true) : isVersChar c = false := by
  by_cases hv : isVersChar c = true
  · rw [versChar_not_space hv] at h; cases h
  · simpa using hv

theorem versChar_ne {c : Char} (h : isVersChar c = true) :
    c ≠ '^' ∧ c ≠ '~' ∧ c ≠ '>' ∧ c ≠ '<' ∧ c ≠ '=' := by
  refine ⟨?_, ?_, ?_, ?_, ?_⟩ <;> rintro rfl <;> exact absurd h (by decide)

theorem pkgStart_ne_slash {c : Char} (h : isPkgStartChar c = true) : c ≠ '/' := by
  rintro rfl; exact absurd h (by decide)

theorem pkgChar_ne_slash {c : Char} (h : isPkgChar c = true) : c ≠ '/' := by
  rintro rfl; exact absurd h (by decide)

/-! ## Matcher correctness: the or-range scanner -/

theorem OrRange_head {l : List Char} (h : OrRange l) :
    ∃ c cs, l = c :: cs ∧ isVersChar c = true := by
  induction h with
  | single hne hall =>
    rename_i seg
    cases seg with
    | nil => exact absurd rfl hne
    | cons c cs =>
      simp only [List.all_cons, Bool.and_eq_true] at hall
      exact ⟨c, cs, rfl, hall.1⟩
  | more hne hall hw1 hw2 hrest ih =>
    rename_i seg w1 w2 rest
    cases seg with
    | nil => exact absurd rfl hne
    | cons c cs =>
      simp only [List.all_cons, Bool.and_eq_true] at hall
      exact ⟨c, cs ++ (w1 ++ ('|' :: '|' :: (w2 ++ rest))), by simp, hall.1⟩


theorem more_shape {seg w1 w2 rest : List Char}
    (hall : seg.all isVersChar = true) (hw1 : w1.all isJsSpace = true)
    (hw2 : w2.all isJsSpace = true) (hhd : ∃ c cs, rest = c :: cs ∧ isVersChar c = true) :
    (seg ++ (w1 ++ ('|' :: '|' :: (w2 ++ rest)))).takeWhile isVersChar = seg ∧
    (seg ++ (w1 ++ ('|' :: '|' :: (w2 ++ rest)))).dropWhile isVersChar
      = w1 ++ ('|' :: '|' :: (w2 ++ rest)) ∧
    (w1 ++ ('|' :: '|' :: (w2 ++ rest))).dropWhile isJsSpace = '|' :: '|' :: (w2 ++ rest) ∧
    (w2 ++ rest).dropWhile isJsSpace = rest := by
  have hpipe : isVersChar '|' = false := by decide
  have hpipes : isJsSpace '|' = false := by decide
  have htail : (w1 ++ ('|' :: '|' :: (w2 ++ rest))).takeWhile isVersChar = [] := by
    cases w1 with
    | nil => exact twConsNeg _ hpipe
    | cons c cs =>
      simp only [List.all_cons, Bool.and_eq_true] at hw1
      exact twConsNeg _ (space_not_versChar hw1.1)
  have htail' : (w1 ++ ('|' :: '|' :: (w2 ++ rest))).dropWhile isVersChar
      = w1 ++ ('|' :: '|' :: (w2 ++ rest)) := by
    cases w1 with
    | nil => exact dwConsNeg _ hpipe
    | cons c cs =>
      simp only [List.all_cons, Bool.and_eq_true] at hw1
      exact dwConsNeg _ (space_not_versChar hw1.1)
  refine ⟨?_, ?_, ?_, ?_⟩
  · rw [twAppend _ hall, htail, List.append_nil]
  · rw [dwAppend _ hall, htail']
  · rw [dwAppend _ hw1, dwConsNeg _ hpipes]
  · obtain ⟨c, cs, rfl, hc⟩ := hhd
    rw [dwAppend _ hw2, dwConsNeg _ (versChar_not_space hc)]


theorem versSegsF_iff (fuel : Nat) (l : List Char) (hf : l.length < fuel) :
    versSegsF fuel l = true ↔ OrRange l := by
  induction fuel generalizing l with
  | zero => omega
  | succ fuel ih =>
    by_cases h1 : l.takeWhile isVersChar = []
    · simp only [versSegsF, h1, if_true]
      constructor
      · intro h; cases h
      · intro h
        obtain ⟨c, cs, rfl, hc⟩ := OrRange_head h
        simp [List.takeWhile, hc] at h1
    · by_cases h2 : l.dropWhile isVersChar = []
      · simp only [versSegsF, h1, h2, if_false, if_true]
        constructor
        · intro _
          have hl : l = l.takeWhile isVersChar := by
            conv_lhs => rw [← List.takeWhile_append_dropWhile (p := isVersChar) (l := l)]
            simp [h2]
          rw [hl]
          exact OrRange.single h1 (twAll _ _)
        · intro _; trivial
      · simp only [versSegsF, h1, h2, if_false]
        split
        · rename_i l2 heq
          have hlen : (l2.dropWhile isJsSpace).length < fuel := by
            have e1 := dwLenLe isJsSpace l2
            have e2 : ((l.dropWhile isVersChar).dropWhile isJsSpace).length = l2.length + 2 := by
              rw [heq]; simp
            have e3 := dwLenLe isJsSpace (l.dropWhile isVersChar)
            have e4 := dwLenLe isVersChar l
            omega
          rw [ih _ hlen]
          have hdpshape : l.dropWhile isVersChar =
              (l.dropWhile isVersChar).takeWhile isJsSpace ++
                ('|' :: '|' :: (l2.takeWhile isJsSpace ++ l2.dropWhile isJsSpace)) := by
            conv_lhs =>
              rw [← List.takeWhile_append_dropWhile (p := isJsSpace)
                (l := l.dropWhile isVersChar)]
            rw [heq, List.takeWhile_append_dropWhile]
          have hl : l = l.takeWhile isVersChar ++
              ((l.dropWhile isVersChar).takeWhile isJsSpace ++
                ('|' :: '|' :: (l2.takeWhile isJsSpace ++ l2.dropWhile isJsSpace))) := by
            conv_lhs => rw [← List.takeWhile_append_dropWhile (p := isVersChar) (l := l)]
            rw [← hdpshape]
          constructor
          · intro hrest
            rw [hl]
            exact OrRange.more h1 (twAll _ _) (twAll _ _) (twAll _ _) hrest
          · intro hor
            cases hor with
            | single hne hall => exact absurd (dwOfAll hall) h2
            | more hne hall hw1 hw2 hrest =>
              rename_i seg w1 w2 rest
              obtain ⟨htk, hdw, hdws, hdwr⟩ := more_shape hall hw1 hw2 (OrRange_head hrest)
              rw [hdw, hdws] at heq
              have hl2 : l2 = w2 ++ rest := by
                injection heq with _ h'
                injection h' with _ h''
                exact h''.symm
              rw [hl2, hdwr]
              exact hrest
        · rename_i hn
          constructor
          · intro h; cases h
          · intro hor
            cases hor with
            | single hne hall => exact absurd (dwOfAll hall) h2
            | more hne hall hw1 hw2 hrest =>
              rename_i seg w1 w2 rest
              obtain ⟨htk, hdw, hdws, hdwr⟩ := more_shape hall hw1 hw2 (OrRange_head hrest)
              exact absurd (by rw [hdw, hdws]) (hn (w2 ++ rest))


theorem versSegs_iff (l : List Char) : versSegs l = true ↔ OrRange l :=
  versSegsF_iff (l.length + 1) l (Nat.lt_succ_self _)


theorem strip_decomp (v : List Char) :
    ∃ pfx, ComparatorPfx pfx ∧ v = pfx ++ stripComparator v := by
  rcases v with _ | ⟨c1, _ | ⟨c2, rest⟩⟩
  · exact ⟨[], Or.inl rfl, rfl⟩
  · by_cases h : c1 = '^' ∨ c1 = '~' ∨ c1 = '>' ∨ c1 = '<'
    · refine ⟨[c1], ?_, ?_⟩
      · rcases h with h | h | h | h <;> subst h <;> simp [ComparatorPfx]
      · simp [stripComparator, h]
    · exact ⟨[], Or.inl rfl, by simp [stripComparator, h]⟩
  · by_cases h1 : (c1 = '>' ∨ c1 = '<') ∧ c2 = '='
    · refine ⟨[c1, c2], ?_, ?_⟩
      · rcases h1 with ⟨h | h, he⟩ <;> subst h <;> subst he <;> simp [ComparatorPfx]
      · simp [stripComparator, h1]
    · by_cases h2 : c1 = '^' ∨ c1 = '~' ∨ c1 = '>' ∨ c1 = '<'
      · refine ⟨[c1], ?_, ?_⟩
        · rcases h2 with h | h | h | h <;> subst h <;> simp [ComparatorPfx]
        · simp [stripComparator, h1, h2]
      · exact ⟨[], Or.inl rfl, by simp [stripComparator, h1, h2]⟩


theorem strip_of_decomp {pfx body : List Char} (hp : ComparatorPfx pfx)
    (hb : ∃ c cs, body = c :: cs ∧ isVersChar c = true) :
    stripComparator (pfx ++ body) = body := by
  obtain ⟨c, cs, rfl, hc⟩ := hb
  obtain ⟨n1, n2, n3, n4, n5⟩ := versChar_ne hc
  rcases hp with rfl | rfl | rfl | rfl | rfl | rfl | rfl
  · cases cs with
    | nil => simp [stripComparator, n1, n2, n3, n4]
    | cons c2 cs2 =>
      have : ¬((c = '>' ∨ c = '<') ∧ c2 = '=') := by rintro ⟨h | h, _⟩ <;> simp_all
      simp [stripComparator, this, n1, n2, n3, n4]
  · simp [stripComparator]
  · simp [stripComparator]
  · simp [stripComparator]
  · simp [stripComparator]
  · simp [stripComparator, n5]
  · simp [stripComparator, n5]


theorem jsVersionTestL_iff (v : List Char) : jsVersionTestL v = true ↔ VersionSpec v := by
  unfold jsVersionTestL VersionSpec versSegs
  simp only [Bool.or_eq_true, beq_iff_eq]
  constructor
  · rintro ((((h | h) | h) | h) | h)
    · obtain ⟨pfx, hp, hv⟩ := strip_decomp v
      refine Or.inl ⟨pfx, stripComparator v, hv, hp, ?_⟩
      exact (versSegsF_iff _ _ (Nat.lt_succ_self _)).mp h
    · exact Or.inr (Or.inl h)
    · exact Or.inr (Or.inr (Or.inl h))
    · exact Or.inr (Or.inr (Or.inr (Or.inl h)))
    · exact Or.inr (Or.inr (Or.inr (Or.inr h)))
  · rintro (⟨pfx, body, rfl, hp, hb⟩ | h | h | h | h)
    · refine Or.inl (Or.inl (Or.inl (Or.inl ?_)))
      rw [strip_of_decomp hp (OrRange_head hb)]
      exact (versSegsF_iff _ _ (Nat.lt_succ_self _)).mpr hb
    · exact Or.inl (Or.inl (Or.inl (Or.inr h)))
    · exact Or.inl (Or.inl (Or.inr h))
    · exact Or.inl (Or.inr h)
    · exact Or.inr h


theorem matchPkgSegment_iff (l : List Char) : matchPkgSegment l = true ↔ SegSpec l := by
  cases l with
  | nil =>
    simp only [matchPkgSegment, SegSpec]
    constructor
    · intro h; cases h
    · rintro ⟨c, cs, h, _⟩; cases h
  | cons c cs =>
    simp only [matchPkgSegment, SegSpec, Bool.and_eq_true]
    constructor
    · rintro ⟨h1, h2⟩; exact ⟨c, cs, rfl, h1, h2⟩
    · rintro ⟨c', cs', heq, h1, h2⟩
      injection heq with e1 e2
      subst e1; subst e2
      exact ⟨h1, h2⟩


theorem segSpec_head_not_at {cs : List Char} (h : SegSpec ('@' :: cs)) : False := by
  obtain ⟨c', cs', heq, h1, h2⟩ := h
  simp only [List.cons.injEq] at heq
  obtain ⟨e1, e2⟩ := heq
  subst e1
  exact absurd h1 (by decide)


theorem segSpec_all_not_slash {l : List Char} (h : SegSpec l) :
    l.all (fun c => !(c == '/')) = true := by
  obtain ⟨c, cs, rfl, h1, h2⟩ := h
  simp only [List.all_cons, Bool.and_eq_true]
  constructor
  · simpa using pkgStart_ne_slash h1
  · simp only [List.all_eq_true] at h2 ⊢
    intro x hx
    simpa using pkgChar_ne_slash (h2 x hx)


theorem matchPkgNameRegex_iff (l : List Char) :
    matchPkgNameRegex l = true ↔
      (SegSpec l ∨
        ∃ scope rest, l = '@' :: (scope ++ '/' :: rest) ∧ SegSpec scope ∧ SegSpec rest) := by
  have hslash : (fun c => !(c == '/')) '/' = false := by decide
  cases l with
  | nil =>
    simp only [matchPkgNameRegex, startsWithChar, Bool.false_eq_true, if_false]
    rw [matchPkgSegment_iff]
    constructor
    · exact Or.inl
    · rintro (h | ⟨scope, rest, heq, _, _⟩)
      · exact h
      · cases heq
  | cons c cs =>
    by_cases hc : c = '@'
    · subst hc
      simp only [matchPkgNameRegex, startsWithChar, decide_eq_true_eq, List.tail_cons]
      rw [if_pos trivial]
      split
      · rename_i namePart heq
        rw [Bool.and_eq_true, matchPkgSegment_iff, matchPkgSegment_iff]
        constructor
        · rintro ⟨hsc, hnp⟩
          refine Or.inr ⟨cs.takeWhile (fun c => !(c == '/')), namePart, ?_, hsc, hnp⟩
          have hd : cs = cs.takeWhile (fun c => !(c == '/')) ++
              cs.dropWhile (fun c => !(c == '/')) :=
            (List.takeWhile_append_dropWhile _ _).symm
          rw [heq] at hd
          rw [← hd]
        · rintro (hseg | ⟨scope, rest, heq2, hsc, hrest⟩)
          · exact absurd hseg segSpec_head_not_at
          · simp only [List.cons.injEq, true_and] at heq2
            have hall := segSpec_all_not_slash hsc
            have hdw : cs.dropWhile (fun c => !(c == '/')) = '/' :: rest := by
              rw [heq2, dwAppend _ hall, dwConsNeg _ hslash]
            have htw : cs.takeWhile (fun c => !(c == '/')) = scope := by
              rw [heq2, twAppend _ hall, twConsNeg _ hslash, List.append_nil]
            rw [hdw] at heq
            simp only [List.cons.injEq, true_and] at heq
            rw [htw, ← heq]
            exact ⟨hsc, hrest⟩
      · rename_i hn
        constructor
        · intro h; cases h
        · rintro (hseg | ⟨scope, rest, heq2, hsc, hrest⟩)
          · exact absurd hseg segSpec_head_not_at
          · simp only [List.cons.injEq, true_and] at heq2
            have hall := segSpec_all_not_slash hsc
            have hdw : cs.dropWhile (fun c => !(c == '/')) = '/' :: rest := by
              rw [heq2, dwAppend _ hall, dwConsNeg _ hslash]
            exact absurd hdw (hn rest)
    · have hsw : startsWithChar '@' (c :: cs) = false := by
        simp [startsWithChar, hc]
      simp only [matchPkgNameRegex, hsw, Bool.false_eq_true, if_false]
      rw [matchPkgSegment_iff]
      constructor
      · exact Or.inl
      · rintro (h | ⟨scope, rest, heq2, _, _⟩)
        · exact h
        · simp only [List.cons.injEq] at heq2
          exact absurd heq2.1 hc


theorem validatePackageNameL_iff (l : List Char) :
    validatePackageNameL l = true ↔
      (jsTrim l ≠ [] ∧ l.length ≤ 214 ∧
        (SegSpec (l.map Char.toLower) ∨
          ∃ scope rest, l.map Char.toLower = '@' :: (scope ++ '/' :: rest) ∧
            SegSpec scope ∧ SegSpec rest)) := by
  unfold validatePackageNameL
  by_cases h : l = [] ∨ jsTrim l = []
  · rw [if_pos h]
    constructor
    · intro hh; cases hh
    · rintro ⟨ht, _, _⟩
      rcases h with h | h
      · subst h; exact absurd rfl ht
      · exact absurd h ht
  · rw [if_neg h]
    push_neg at h
    rw [Bool.and_eq_true, matchPkgNameRegex_iff, decide_eq_true_eq]
    constructor
    · rintro ⟨hre, hlen⟩; exact ⟨h.2, hlen, hre⟩
    · rintro ⟨_, hlen, hre⟩; exact ⟨hre, hlen⟩


theorem validatePackageName_iff (name : String) :
    validatePackageName name = true ↔ NameGrammar name :=
  validatePackageNameL_iff name.data


theorem vpnwv_iff (s : String) (hs : jsTrim s.data ≠ []) :
    validatePackageNameWithVersion s = true ↔ SplitGrammar s := by
  have hnil : ¬(s.data = [] ∨ jsTrim s.data = []) := by
    rintro (h | h)
    · rw [h] at hs; exact hs rfl
    · exact hs h
  unfold validatePackageNameWithVersion SplitGrammar
  rw [if_neg hnil]
  by_cases hsw : startsWithChar '@' (jsTrim s.data) = true
  · rw [if_pos hsw, if_pos hsw]
    by_cases h2 : (splitOnChar '@' (jsTrim s.data)).length = 2
    · rw [if_pos h2]
      simp [h2]
    · rw [if_neg h2]
      by_cases h3 : (splitOnChar '@' (jsTrim s.data)).length = 3
      · rw [if_pos h3]
        rw [Bool.and_eq_true, jsVersionTestL_iff]
        simp [h2, h3, and_assoc]
      · rw [if_neg h3]
        simp [h2, h3]
  · rw [if_neg hsw, if_neg hsw]
    by_cases h1 : (splitOnChar '@' (jsTrim s.data)).length = 1
    · rw [if_pos h1]
      simp [h1]
    · rw [if_neg h1]
      by_cases h2 : (splitOnChar '@' (jsTrim s.data)).length = 2
      · rw [if_pos h2]
        rw [Bool.and_eq_true, jsVersionTestL_iff]
        simp [h1, h2, and_assoc]
      · rw [if_neg h2]
        simp [h1, h2]


theorem OrRange_chars {l : List Char} (h : OrRange l) :
    l.all (fun c => isVersChar c || isJsSpace c || c == '|') = true := by
  induction h with
  | single hne hall =>
    rename_i seg
    simp only [List.all_eq_true] at hall ⊢
    intro x hx
    simp [hall x hx]
  | more hne hall hw1 hw2 hrest ih =>
    rename_i seg w1 w2 rest
    simp only [List.all_eq_true] at hall hw1 hw2 ih
    simp only [List.all_eq_true, List.mem_append, List.mem_cons]
    rintro x (hx | hx | rfl | rfl | hx | hx)
    · simp [hall x hx]
    · simp [hw1 x hx]
    · simp
    · simp
    · simp [hw2 x hx]
    · simp [ih x hx]


theorem class_not_comparator {c : Char}
    (h : (isVersChar c || isJsSpace c || c == '|') = true) :
    (!(c = '^' || c = '~' || c = '>' || c = '<' || c = '=')) = true := by
  simp only [Bool.or_eq_true, beq_iff_eq, decide_eq_true_eq] at h
  simp only [Bool.not_eq_true', Bool.or_eq_false_iff, decide_eq_false_iff_not]
  refine ⟨⟨⟨⟨?_, ?_⟩, ?_⟩, ?_⟩, ?_⟩ <;> rintro rfl <;>
    rcases h with (h | h) | h <;> exact absurd h (by decide)


theorem pnInput_none_iff (s : String) :
    validatePackageNameInput s = none ↔ validatePackageName s = true := by
  unfold validatePackageNameInput
  by_cases ht : jsTrim s.data = []
  · rw [if_pos ht]
    have hP : validatePackageName s = false := by
      unfold validatePackageName validatePackageNameL
      rw [if_pos (Or.inr ht)]
    simp [hP]
  · rw [if_neg ht]
    by_cases hv : validatePackageName s = false
    · rw [if_pos hv]
      simp [hv]
    · rw [if_neg hv]
      simp only [Bool.not_eq_false] at hv
      simp [hv]


theorem pnInput_reject (s : String) (h : validatePackageName s = false) :
    ∃ m, validatePackageNameInput s = some m ∧
      (hasSub m.data "empty".data = true ∨ hasSub m.data "Invalid".data = true) := by
  unfold validatePackageNameInput
  by_cases ht : jsTrim s.data = []
  · rw [if_pos ht]
    exact ⟨_, rfl, Or.inl (by decide)⟩
  · rw [if_neg ht, if_pos h]
    exact ⟨_, rfl, Or.inr (by decide)⟩


theorem wvInput_none_iff (s : String) :
    validatePackageNameWithVersionInput s = none ↔
      validatePackageNameWithVersion s = true := by
  unfold validatePackageNameWithVersionInput
  by_cases ht : jsTrim s.data = []
  · rw [if_pos ht]
    have hP : validatePackageNameWithVersion s = false := by
      unfold validatePackageNameWithVersion
      rw [if_pos (Or.inr ht)]
    simp [hP]
  · rw [if_neg ht]
    by_cases hv : validatePackageNameWithVersion s = false
    · rw [if_pos hv]
      simp [hv]
    · rw [if_neg hv]
      simp only [Bool.not_eq_false] at hv
      simp [hv]


theorem wvInput_reject (s : String) (h : validatePackageNameWithVersion s = false) :
    ∃ m, validatePackageNameWithVersionInput s = some m ∧
      (hasSub m.data "empty".data = true ∨ hasSub m.data "Invalid".data = true) := by
  unfold validatePackageNameWithVersionInput
  by_cases ht : jsTrim s.data = []
  · rw [if_pos ht]
    exact ⟨_, rfl, Or.inl (by decide)⟩
  · rw [if_neg ht, if_pos h]
    exact ⟨_, rfl, Or.inr (by decide)⟩


theorem snInput_none_iff (s : String) :
    validateScriptNameInput s = none ↔ validateScriptName s = true := by
  unfold validateScriptNameInput
  by_cases ht : jsTrim s.data = []
  · rw [if_pos ht]
    have hP : validateScriptName s = false := by
      unfold validateScriptName
      rw [if_pos (Or.inr ht)]
    simp [hP]
  · rw [if_neg ht]
    by_cases hv : validateScriptName s = false
    · rw [if_pos hv]
      simp [hv]
    · rw [if_neg hv]
      simp only [Bool.not_eq_false] at hv
      simp [hv]


theorem snInput_reject (s : String) (h : validateScriptName s = false) :
    ∃ m, validateScriptNameInput s = some m ∧
      (hasSub m.data "empty".data = true ∨ hasSub m.data "Invalid".data = true) := by
  unfold validateScriptNameInput
  by_cases ht : jsTrim s.data = []
  · rw [if_pos ht]
    exact ⟨_, rfl, Or.inl (by decide)⟩
  · rw [if_neg ht, if_pos h]
    exact ⟨_, rfl, Or.inr (by decide)⟩


theorem scInput_none_iff (s : String) :
    validateScriptCommandInput s = none ↔ validateScriptCommand s = true := by
  unfold validateScriptCommandInput validateScriptCommand
  by_cases ht : jsTrim s.data = []
  · rw [if_pos ht]
    simp [ht]
  · rw [if_neg ht]
    have hd : s.data ≠ [] := by
      intro h; rw [h] at ht; exact ht rfl
    simp [ht, hd]


theorem scInput_reject (s : String) (h : validateScriptCommand s = false) :
    ∃ m, validateScriptCommandInput s = some m ∧
      (hasSub m.data "empty".data = true ∨ hasSub m.data "Invalid".data = true) := by
  unfold validateScriptCommandInput
  by_cases ht : jsTrim s.data = []
  · rw [if_pos ht]
    exact ⟨_, rfl, Or.inl (by decide)⟩
  · exfalso
    unfold validateScriptCommand at h
    have hd : s.data ≠ [] := by
      intro hh; rw [hh] at ht; exact ht rfl
    simp [ht, hd] at h


/-! ## Detector lemmas -/

theorem detect_eq_priority (files : List String) (cfg : Option PackageManagerName) :
    detect ⟨some ⟨files⟩, cfg⟩ =
      (if files.contains "pnpm-lock.yaml" then .pnpm
       else if files.contains "yarn.lock" then .yarn
       else if files.contains "bun.lockb" then .bun
       else if files.contains "package-lock.json" then .npm
       else cfg.getD .npm) := by
  simp only [detect, lockFiles, List.find?]
  cases h1 : files.contains "pnpm-lock.yaml" <;>
    cases h2 : files.contains "yarn.lock" <;>
      cases h3 : files.contains "bun.lockb" <;>
        cases h4 : files.contains "package-lock.json" <;>
          simp [h1, h2, h3, h4, VSCodeEnv.configGet]

/-! ## Claim theorems -/

/-- Claim C1: `detect` resolves the package manager by lock-file priority —
for every filesystem state it tests `pnpm-lock.yaml`, then `yarn.lock`, then
`bun.lockb`, then `package-lock.json` and returns the manager of the first
file present; each of the four lock files alone yields its manager, and with
`pnpm-lock.yaml`, `yarn.lock` and `package-lock.json` coexisting it silently
returns pnpm. -/
theorem detect_lockfile_priority :
    (∀ (files : List String) (cfg : Option PackageManagerName),
      detect ⟨some ⟨files⟩, cfg⟩ =
        (if files.contains "pnpm-lock.yaml" then .pnpm
         else if files.contains "yarn.lock" then .yarn
         else if files.contains "bun.lockb" then .bun
         else if files.contains "package-lock.json" then .npm
         else cfg.getD .npm)) ∧
    detect ⟨some ⟨["pnpm-lock.yaml"]⟩, none⟩ = .pnpm ∧
    detect ⟨some ⟨["yarn.lock"]⟩, none⟩ = .yarn ∧
    detect ⟨some ⟨["bun.lockb"]⟩, none⟩ = .bun ∧
    detect ⟨some ⟨["package-lock.json"]⟩, none⟩ = .npm ∧
    detect ⟨some ⟨["pnpm-lock.yaml", "yarn.lock", "package-lock.json"]⟩, none⟩ = .pnpm := by
  refine ⟨detect_eq_priority, ?_, ?_, ?_, ?_, ?_⟩ <;> decide

/-- Claim C5: `detect` is total and degrades gracefully — with no workspace
folder it returns npm; with a root but none of the four lock files it returns
the configured default manager, which itself defaults to npm when
unconfigured. -/
theorem detect_graceful_default (cfg : Option PackageManagerName) (files : List String)
    (h1 : files.contains "pnpm-lock.yaml" = false)
    (h2 : files.contains "yarn.lock" = false)
    (h3 : files.contains "bun.lockb" = false)
    (h4 : files.contains "package-lock.json" = false) :
    detect ⟨none, cfg⟩ = .npm ∧
    detect ⟨some ⟨files⟩, cfg⟩ = cfg.getD .npm ∧
    detect ⟨some ⟨files⟩, none⟩ = .npm := by
  refine ⟨rfl, ?_, ?_⟩ <;>
    · rw [detect_eq_priority]
      simp only [h1, h2, h3, h4, Bool.false_eq_true, if_false, Option.getD]

theorem detect_graceful_default_witness :
    detect ⟨none, some .yarn⟩ = .npm ∧
    detect ⟨some ⟨["README.md"]⟩, some .yarn⟩ = (some PackageManagerName.yarn).getD .npm ∧
    detect ⟨some ⟨["README.md"]⟩, none⟩ = .npm :=
  detect_graceful_default (some .yarn) ["README.md"] (by decide) (by decide) (by decide)
    (by decide)

/-- Claim C4: `getInstallCommand` follows the per-manager table — with no
package name it is the manager followed by ` install`; with a package name the
manager's add verb (`install` for npm, `add` otherwise) followed by the name;
with `isDev` additionally the manager's dev flag (`--save-dev` for npm/pnpm,
`--dev` for yarn/bun). -/
theorem getInstallCommand_table (env : VSCodeEnv) (pkg : String) (isDev : Bool)
    (hp : pkg ≠ "") :
    getInstallCommand env none isDev = (detect env).str ++ " install" ∧
    getInstallCommand env (some pkg) false =
      (detect env).str ++ (if detect env = .npm then " install " else " add ") ++ pkg ∧
    getInstallCommand env (some pkg) true =
      (detect env).str ++ (if detect env = .npm then " install " else " add ") ++ pkg ++
        (if detect env = .npm ∨ detect env = .pnpm then " --save-dev" else " --dev") := by
  cases hm : detect env <;>
    refine ⟨?_, ?_, ?_⟩ <;>
      simp only [getInstallCommand, hm, jsTruthy, hp, decide_not, PackageManagerName.str] <;>
        simp [hp]

theorem getInstallCommand_table_witness :
    getInstallCommand ⟨some ⟨["yarn.lock"]⟩, none⟩ none false =
      (detect ⟨some ⟨["yarn.lock"]⟩, none⟩).str ++ " install" ∧
    getInstallCommand ⟨some ⟨["yarn.lock"]⟩, none⟩ (some "react") false =
      (detect ⟨some ⟨["yarn.lock"]⟩, none⟩).str ++
        (if detect ⟨some ⟨["yarn.lock"]⟩, none⟩ = .npm then " install " else " add ") ++
        "react" ∧
    getInstallCommand ⟨some ⟨["yarn.lock"]⟩, none⟩ (some "react") true =
      (detect ⟨some ⟨["yarn.lock"]⟩, none⟩).str ++
        (if detect ⟨some ⟨["yarn.lock"]⟩, none⟩ = .npm then " install " else " add ") ++
        "react" ++
        (if detect ⟨some ⟨["yarn.lock"]⟩, none⟩ = .npm ∨
            detect ⟨some ⟨["yarn.lock"]⟩, none⟩ = .pnpm then " --save-dev" else " --dev") :=
  getInstallCommand_table ⟨some ⟨["yarn.lock"]⟩, none⟩ "react" false (by decide)

/-- Claim C3 (amended): the run-command table of `getRunCommand` — npm and bun
use `<manager> run <scriptName>`, while yarn AND pnpm both use the shorthand
`<manager> <scriptName>` without the `run` keyword (the claim asserted
`pnpm run <scriptName>`; the code and its tests use `pnpm <scriptName>`). -/
theorem getRunCommand_table (env : VSCodeEnv) (scriptName : String) :
    (detect env = .npm → getRunCommand env scriptName = "npm run " ++ scriptName) ∧
    (detect env = .yarn → getRunCommand env scriptName = "yarn " ++ scriptName) ∧
    (detect env = .pnpm → getRunCommand env scriptName = "pnpm " ++ scriptName) ∧
    (detect env = .bun → getRunCommand env scriptName = "bun run " ++ scriptName) := by
  refine ⟨?_, ?_, ?_, ?_⟩ <;> intro hm <;> simp [getRunCommand, hm]

/-- Claim C3, counterexample to the claim as stated: in a pnpm workspace,
`getRunCommand 'start'` is `pnpm start`, not `pnpm run start`. -/
theorem getRunCommand_pnpm_counterexample :
    detect ⟨some ⟨["pnpm-lock.yaml"]⟩, none⟩ = .pnpm ∧
    getRunCommand ⟨some ⟨["pnpm-lock.yaml"]⟩, none⟩ "start" = "pnpm start" ∧
    getRunCommand ⟨some ⟨["pnpm-lock.yaml"]⟩, none⟩ "start" ≠ "pnpm run start" := by
  refine ⟨?_, ?_, ?_⟩ <;> decide

theorem getRunCommand_table_witness :
    getRunCommand ⟨some ⟨["yarn.lock"]⟩, none⟩ "start" = "yarn " ++ "start" :=
  (getRunCommand_table ⟨some ⟨["yarn.lock"]⟩, none⟩ "start").2.1 (by decide)

/-- Claim C2 (amended): the current two-argument `getUpdateCommand` always
emits the manager's add verb with an explicit `@version` (or `@latest`)
suffix, for every package name and every (non-empty) optional version; the
claim's "no code path emits a bare manager-native update/upgrade subcommand"
fails only for the historical second variant, see the counterexample. -/
theorem getUpdateCommand_explicit_version (env : VSCodeEnv) (pkg v : String) (hv : v ≠ "") :
    getUpdateCommand env pkg (some v) =
      (detect env).str ++ (if detect env = .npm then " install " else " add ") ++
        pkg ++ "@" ++ v ∧
    getUpdateCommand env pkg none =
      (detect env).str ++ (if detect env = .npm then " install " else " add ") ++
        pkg ++ "@latest" ∧
    (∃ s : String, getUpdateCommand env pkg (some v) = s ++ "@" ++ v) ∧
    (∃ s : String, getUpdateCommand env pkg none = s ++ "@latest") := by
  have h1 : getUpdateCommand env pkg (some v) =
      (detect env).str ++ (if detect env = .npm then " install " else " add ") ++
        pkg ++ "@" ++ v := by
    cases hm : detect env <;> (simp [getUpdateCommand, hm, jsTruthy, hv]; rfl)
  have h2 : getUpdateCommand env pkg none =
      (detect env).str ++ (if detect env = .npm then " install " else " add ") ++
        pkg ++ "@latest" := by
    cases hm : detect env <;> (simp [getUpdateCommand, hm, jsTruthy]; rfl)
  exact ⟨h1, h2,
    ⟨(detect env).str ++ (if detect env = .npm then " install " else " add ") ++ pkg, h1⟩,
    ⟨(detect env).str ++ (if detect env = .npm then " install " else " add ") ++ pkg, h2⟩⟩

theorem getUpdateCommand_explicit_version_witness :
    getUpdateCommand ⟨some ⟨[]⟩, none⟩ "lodash" (some "18.2.0") =
      (detect ⟨some ⟨[]⟩, none⟩).str ++
        (if detect ⟨some ⟨[]⟩, none⟩ = .npm then " install " else " add ") ++
        "lodash" ++ "@" ++ "18.2.0" ∧
    getUpdateCommand ⟨some ⟨[]⟩, none⟩ "lodash" none =
      (detect ⟨some ⟨[]⟩, none⟩).str ++
        (if detect ⟨some ⟨[]⟩, none⟩ = .npm then " install " else " add ") ++
        "lodash" ++ "@latest" ∧
    (∃ s : String, getUpdateCommand ⟨some ⟨[]⟩, none⟩ "lodash" (some "18.2.0") =
      s ++ "@" ++ "18.2.0") ∧
    (∃ s : String, getUpdateCommand ⟨some ⟨[]⟩, none⟩ "lodash" none = s ++ "@latest") :=
  getUpdateCommand_explicit_version ⟨some ⟨[]⟩, none⟩ "lodash" "18.2.0" (by decide)

/-- Claim C2, counterexample to the claim as stated over both cited variants:
the historical second variant of `getUpdateCommand` produces the bare
manager-native update subcommand `npm update lodash`, which contains no `@`
version token. -/
theorem getUpdateCommand_bare_update_counterexample :
    legacyGetUpdateCommand ⟨some ⟨["package-lock.json"]⟩, none⟩ "lodash" =
      "npm update lodash" ∧
    hasSub (legacyGetUpdateCommand ⟨some ⟨["package-lock.json"]⟩, none⟩ "lodash").data
      "@".data = false := by
  refine ⟨?_, ?_⟩ <;> decide

/-- Claim C9: for every environment and every argument, each of the five
command builders returns a string whose first whitespace-delimited token is
the detected manager's identifier. -/
theorem commands_start_with_manager (env : VSCodeEnv) (pkgOpt : Option String) (isDev : Bool)
    (pkg scriptName : String) (version : Option String) :
    firstTokenIs (getInstallCommand env pkgOpt isDev) (detect env).str ∧
    firstTokenIs (getRemoveCommand env pkg) (detect env).str ∧
    firstTokenIs (getUpdateCommand env pkg version) (detect env).str ∧
    firstTokenIs (getAuditCommand env) (detect env).str ∧
    firstTokenIs (getRunCommand env scriptName) (detect env).str := by
  cases hm : detect env <;> refine ⟨?_, ?_, ?_, ?_, ?_⟩ <;>
    first
      | (cases hq : jsTruthy pkgOpt <;>
          cases isDev <;>
            simp only [getInstallCommand, hm, hq, Bool.false_eq_true, if_true, if_false] <;>
              exact Or.inr ⟨_, rfl⟩)
      | (cases hq : jsTruthy version <;>
          simp only [getUpdateCommand, hm, hq, Bool.true_eq_false, if_true, if_false] <;>
            exact Or.inr ⟨_, rfl⟩)
      | (simp only [getRemoveCommand, getAuditCommand, getRunCommand, hm];
          exact Or.inr ⟨_, rfl⟩)

/-- Claim C7: `validatePackageName` accepts exactly the strings that are
non-empty after trimming, at most 214 characters long, and whose lower-cased
copy matches the optional-scope grammar; with the claim's concrete
acceptances and rejections. -/
theorem validatePackageName_grammar :
    (∀ name : String, validatePackageName name = true ↔ NameGrammar name) ∧
    validatePackageName "@angular/core" = true ∧
    validatePackageName "my-package" = true ∧
    validatePackageName "package.name" = true ∧
    validatePackageName "" = false ∧
    validatePackageName "package with spaces" = false ∧
    validatePackageName "@" = false ∧
    validatePackageName "@/package" = false :=
  ⟨validatePackageName_iff, by decide, by decide, by decide, by decide, by decide,
   by decide, by decide⟩

theorem validatePackageName_grammar_witness : NameGrammar "my-package" :=
  (validatePackageName_grammar.1 "my-package").mp (by decide)

/-- Claim C6: `validatePackageNameWithVersion` decides acceptance by
split-on-`@` part counts exactly as described (scoped: 2 or 3 parts;
unscoped: 1 or 2 parts; any other count rejected; names re-checked through
`validatePackageName` and versions through the version grammar), and the
claim's concrete examples hold. -/
theorem validatePackageNameWithVersion_split_counts :
    (∀ s : String, jsTrim s.data ≠ [] →
      (validatePackageNameWithVersion s = true ↔ SplitGrammar s)) ∧
    validatePackageNameWithVersion "lodash@^1.2.3" = true ∧
    validatePackageNameWithVersion "@types/node@latest" = true ∧
    validatePackageNameWithVersion "package@" = false ∧
    validatePackageNameWithVersion "package@@1.0.0" = false ∧
    validatePackageNameWithVersion "@invalid@1.0.0" = false :=
  ⟨vpnwv_iff, by decide, by decide, by decide, by decide, by decide⟩

theorem validatePackageNameWithVersion_split_counts_witness : SplitGrammar "lodash@4.0.0" :=
  (validatePackageNameWithVersion_split_counts.1 "lodash@4.0.0" (by decide)).mp (by decide)

/-- Claim C10: in the version grammar, a comparator may only appear as the
prefix of the whole version string, hence only on the first segment of a
`||`-range: the or-range body matched after the optional prefix never contains
`^ ~ > < =`; so `pkg@^1.0.0 || 2.0.0` is accepted while
`pkg@1.0.0 || ^2.0.0` is rejected. -/
theorem version_comparator_only_first :
    validatePackageNameWithVersion "pkg@^1.0.0 || 2.0.0" = true ∧
    validatePackageNameWithVersion "pkg@1.0.0 || ^2.0.0" = false ∧
    (∀ l : List Char, versSegs l = true →
      l.all (fun c => !(c = '^' || c = '~' || c = '>' || c = '<' || c = '=')) = true) := by
  refine ⟨by decide, by decide, fun l hl => ?_⟩
  have hch := OrRange_chars ((versSegs_iff l).mp hl)
  simp only [List.all_eq_true] at hch ⊢
  intro x hx
  exact class_not_comparator (hch x hx)

theorem version_comparator_only_first_witness :
    ("1.0.0".data.all (fun c => !(c = '^' || c = '~' || c = '>' || c = '<' || c = '='))) =
      true :=
  version_comparator_only_first.2.2 "1.0.0".data (by decide)

/-- Claim C8: each `validate*Input` adapter returns `null` exactly when its
predicate accepts, and every rejected string yields a message containing
"empty" or "Invalid". -/
theorem validateInput_roundtrip (s : String) :
    (validatePackageNameInput s = none ↔ validatePackageName s = true) ∧
    (validatePackageName s = false →
      ∃ m, validatePackageNameInput s = some m ∧
        (hasSub m.data "empty".data = true ∨ hasSub m.data "Invalid".data = true)) ∧
    (validatePackageNameWithVersionInput s = none ↔
      validatePackageNameWithVersion s = true) ∧
    (validatePackageNameWithVersion s = false →
      ∃ m, validatePackageNameWithVersionInput s = some m ∧
        (hasSub m.data "empty".data = true ∨ hasSub m.data "Invalid".data = true)) ∧
    (validateScriptNameInput s = none ↔ validateScriptName s = true) ∧
    (validateScriptName s = false →
      ∃ m, validateScriptNameInput s = some m ∧
        (hasSub m.data "empty".data = true ∨ hasSub m.data "Invalid".data = true)) ∧
    (validateScriptCommandInput s = none ↔ validateScriptCommand s = true) ∧
    (validateScriptCommand s = false →
      ∃ m, validateScriptCommandInput s = some m ∧
        (hasSub m.data "empty".data = true ∨ hasSub m.data "Invalid".data = true)) :=
  ⟨pnInput_none_iff s, pnInput_reject s, wvInput_none_iff s, wvInput_reject s,
   snInput_none_iff s, snInput_reject s, scInput_none_iff s, scInput_reject s⟩

theorem validateInput_roundtrip_witness :
    (∃ m, validatePackageNameInput "package with spaces" = some m ∧
      (hasSub m.data "empty".data = true ∨ hasSub m.data "Invalid".data = true)) ∧
    validateScriptCommandInput "npm test" = none :=
  ⟨(validateInput_roundtrip "package with spaces").2.1 (by decide),
   ((validateInput_roundtrip "npm test").2.2.2.2.2.2.1).mpr (by decide)⟩
